import Mathlib

/-!
Verification development for the canopy-joan repository.

The repository ships a build orchestration script
(`app/scripts/canopy-build.mjs`), embedded directly below as `getMode` and
`verifyBuildOutput`.  The Collection Ingestion and Manifest Cache Pipeline
(walker, fetcher, cache store, normalizer, thumbnail resolver) lives in the
external package named in the script and is not part of the
visible sources; those components are modelled here from the written
specification and each such definition says so in its doc comment.
-/

namespace Canopy

/-! ## Data model -/

/-- Modelled from the spec: the two resource kinds of the tree (glossary):
a Collection node referencing children, and a Manifest leaf. -/
inductive Kind where
  | collection
  | manifest
deriving DecidableEq, Repr

/-- Modelled from the spec: a declared preview-image reference with its
pixel width, as inspected by the Thumbnail Resolver (section 4.3). -/
structure ImgRef where
  url : String
  width : Nat
deriving DecidableEq, Repr

/-- Modelled from the spec: a raw fetched document.  The raw response body
is surrogate-encoded as a natural number; `children` are the child
resource ids enumerated from a Collection body; `version` is the declared
schema dialect; `preview` holds the explicit top-level preview images and
`canvases` the referenced sub-resources that the expanded thumbnail
strategy may probe. -/
structure RawDoc where
  id : String
  kind : Kind
  label : String
  children : List String
  body : Nat
  version : Nat
  preview : List ImgRef
  canvases : List (List ImgRef)
deriving DecidableEq, Repr

/-- Modelled from the spec: the remote world reachable over the network,
a finite map from resource id to its current raw document. -/
abbrev World : Type := List (String × RawDoc)

/-- Association-list lookup keyed by resource id. -/
def alistFind {β : Type} (id : String) : List (String × β) → Option β
  | [] => none
  | (k, v) :: rest => if k = id then some v else alistFind id rest

/-- Keys of an association list. -/
def keys {β : Type} (l : List (String × β)) : List String :=
  l.map Prod.fst

/-- Modelled from the spec: `fetch(uri)` resolves a uri against the remote
world; `none` is a failed (unreachable) fetch (section 4.4). -/
def lookupDoc (world : World) (id : String) : Option RawDoc :=
  alistFind id world

/-! ## Identity and Hash Codec (spec section 4.1) -/

/-- Modelled from the spec: `hash(rawBytes) -> contentHash`, a
deterministic, collision-resistant digest over the raw response body; the
body surrogate is already a number, so the digest is modelled as the
identity on it (deterministic and injective). -/
def hashBytes (body : Nat) : Nat := body

/-! ## Normalizer (spec section 4.2) -/

/-- Modelled from the spec: the canonical output of normalization
`{id, kind, label, structure, content-hash}` plus the preview data the
Thumbnail Resolver reads. -/
structure NormalizedResource where
  id : String
  kind : Kind
  label : String
  items : List String
  contentHash : Nat
  preview : List ImgRef
  canvases : List (List ImgRef)
deriving DecidableEq, Repr

/-- Modelled from the spec: normalization failure taxonomy
(section 7). -/
inductive NormError where
  | unsupportedSchema
  | malformedResource
deriving DecidableEq, Repr

/-- Modelled from the spec: `normalize(rawDocument, declaredVersion)`
upgrades the supported dialects (Presentation 2 and 3) to the canonical
schema and rejects unknown dialects with `UnsupportedSchema`; a pure
function of the document and the declared version. -/
def normalize (doc : RawDoc) (declaredVersion : Nat) :
    Except NormError NormalizedResource :=
  if declaredVersion = 2 ∨ declaredVersion = 3 then
    Except.ok
      { id := doc.id
        kind := doc.kind
        label := doc.label
        items := doc.children
        contentHash := hashBytes doc.body
        preview := doc.preview
        canvases := doc.canvases }
  else
    Except.error NormError.unsupportedSchema

/-- Modelled from the spec: the context in which one invocation of the
Normalizer happens (wall-clock time and invocation order); section 4.2
requires the result to depend on the input byte stream and the declared
version only, never on this context. -/
structure InvocationCtx where
  timestamp : Nat
  ordinal : Nat
deriving DecidableEq, Repr

/-- Modelled from the spec: running `normalize` inside a particular
invocation context: the context carries no influence over the result. -/
def normalizeInvoke (_ctx : InvocationCtx) (doc : RawDoc)
    (declaredVersion : Nat) : Except NormError NormalizedResource :=
  normalize doc declaredVersion

/-! ## Thumbnail Resolver (spec section 4.3) -/

/-- Modelled from the spec: the two resolution strategies; the README
names the second one the expanded strategy. -/
inductive Strategy where
  | safe
  | expanded
deriving DecidableEq, Repr

/-- Modelled from the spec: the thumbnail options
`{strategy, preferredSize}` plus the small fixed probe limit of the
expanded strategy. -/
structure ThumbOptions where
  strategy : Strategy
  preferredSize : Nat
  probeLimit : Nat
deriving DecidableEq, Repr

/-- Distance between a candidate width and the preferred size. -/
def distTo (p w : Nat) : Nat := max p w - min p w

/-- Modelled from the spec: select the declared image closest to the
preferred size, first occurrence winning ties. -/
def selectClosest (p : Nat) : List ImgRef → Option ImgRef
  | [] => none
  | i :: rest =>
    match selectClosest p rest with
    | none => some i
    | some j => if distTo p i.width ≤ distTo p j.width then some i else some j

/-- Modelled from the spec: `resolveThumbnail(normalizedResource, options)`.
The safe strategy inspects only the explicit top-level preview images; the
expanded strategy falls back to probing at most `probeLimit` referenced
sub-resources when no top-level preview exists.  `none` means no suitable
image, not an error. -/
def resolveThumbnail (res : NormalizedResource) (opts : ThumbOptions) :
    Option String :=
  match opts.strategy with
  | Strategy.safe => Option.map ImgRef.url (selectClosest opts.preferredSize res.preview)
  | Strategy.expanded =>
    match selectClosest opts.preferredSize res.preview with
    | some i => some i.url
    | none =>
      Option.map ImgRef.url
        (selectClosest opts.preferredSize
          (List.flatten (List.take opts.probeLimit res.canvases)))

/-! ## Cache Store (spec sections 3 and 4.5) -/

/-- Modelled from the spec: the root metadata section of the cache index,
`collection {uri, hash, updatedAt}`. -/
structure RootMeta where
  uri : String
  hash : Nat
  updatedAt : Nat
deriving DecidableEq, Repr

/-- Modelled from the spec: the durable cache index: the id-to-slug map
`byId` and the root `collection` metadata. -/
structure CacheIndex where
  byId : List (String × String)
  collection : Option RootMeta
deriving DecidableEq, Repr

/-- Modelled from the spec: one cached normalized leaf resource persisted
under its assigned slug together with its resolved thumbnail. -/
structure CachedEntry where
  slug : String
  resource : NormalizedResource
  thumbnail : Option String
deriving DecidableEq, Repr

/-- Modelled from the spec: the durable cache: the index plus the persisted
entries, keyed here by resource id (each entry records its slug). -/
structure CacheState where
  index : CacheIndex
  entries : List (String × CachedEntry)
deriving DecidableEq, Repr

/-- Modelled from the spec: the empty cache (absent cache directory). -/
def emptyCache : CacheState :=
  { index := { byId := [], collection := none }, entries := [] }

/-- Modelled from the spec: a slug is a filesystem- and URL-safe name
derived deterministically from the id. -/
def slugify (id : String) : String :=
  String.mk (id.data.map (fun ch => if ch.isAlphanum then ch else Char.ofNat 45))

/-- Modelled from the spec: deterministic collision resolution at slug
assignment time, by numeric suffixing against the slugs already taken. -/
def freshSlug (taken : List String) (base : String) : String :=
  if base ∈ taken then
    match (List.range (taken.length + 1)).find?
        (fun k => decide ((base ++ "-" ++ toString k) ∉ taken)) with
    | some k => base ++ "-" ++ toString k
    | none => base ++ "-dup"
  else base

/-- Replace the entry stored for an id, or append it when absent. -/
def upsertEntry (id : String) (e : CachedEntry) :
    List (String × CachedEntry) → List (String × CachedEntry)
  | [] => [(id, e)]
  | (k, v) :: rest =>
    if k = id then (id, e) :: rest else (k, v) :: upsertEntry id e rest

/-- The slug an id resolves to at `put` time: the slug already assigned
in the index if any, otherwise a fresh deterministic one. -/
def slugFor (c : CacheState) (id : String) : String :=
  match alistFind id c.index.byId with
  | some s => s
  | none => freshSlug (c.index.byId.map Prod.snd) (slugify id)

/-- Modelled from the spec: `put(id, NormalizedResource, thumbnail)`: the
only mutation path.  It assigns a slug on first sight of an id (never
reassigned) and persists an entry for leaf (Manifest) resources;
Collections receive a slug in `byId` but no entry file. -/
def cachePut (c : CacheState) (id : String) (norm : NormalizedResource)
    (thumb : Option String) : CacheState :=
  { index :=
      { byId :=
          match alistFind id c.index.byId with
          | some _ => c.index.byId
          | none => c.index.byId ++ [(id, slugFor c id)]
        collection := c.index.collection }
    entries :=
      if norm.kind = Kind.manifest then
        upsertEntry id ⟨slugFor c id, norm, thumb⟩ c.entries
      else c.entries }

/-- Modelled from the spec: record the root collection metadata in the
index at the end of a walk. -/
def setMeta (c : CacheState) (uri : String) (h now : Nat) : CacheState :=
  { c with index := { c.index with collection := some ⟨uri, h, now⟩ } }

/-- Well-formedness of a cache: no duplicate id rows in either section. -/
def WFCache (c : CacheState) : Prop :=
  (keys c.index.byId).Nodup ∧ (keys c.entries).Nodup

/-! ## Collection Walker (spec sections 4.6, 5) -/

/-- Modelled from the spec: the state of one build: the synchronized seen
id set, the work queue of pending references, the log of dispatched ids
(`visitLog`), the log of full network fetches (`fetchLog`), the
accumulated per-resource failures, the cache being mutated, whether the
walk drained its queue (`completed`) and whether a fatal root failure
happened (`fatal`). -/
structure BuildState where
  seen : List String
  frontier : List String
  visitLog : List String
  fetchLog : List String
  failures : List String
  cache : CacheState
  completed : Bool
  fatal : Bool
deriving DecidableEq, Repr

/-- Modelled from the spec: enumerate a normalized Collection body and
claim each child id against the seen set (atomic check-and-claim): a child
already seen is dropped, a new one is added to both the seen set and the
frontier. -/
def claimChildren (seen frontier : List String) :
    List String → List String × List String
  | [] => (seen, frontier)
  | c :: cs =>
    if c ∈ seen then claimChildren seen frontier cs
    else claimChildren (c :: seen) (c :: frontier) cs

/-- Modelled from the spec: the cheap staleness check of a cached entry:
the stored content hash is compared against the hash of the current
remote bytes (section 4.6, Cached-Hit). -/
def hitCheck (c : CacheState) (id : String) (h : Nat) : Bool :=
  match alistFind id c.entries with
  | some e => decide (e.resource.contentHash = h)
  | none => false

/-- Modelled from the spec: dispatch one pending reference (already popped
from the frontier): record the visit, fetch it, on a verified cached hit
reuse the stored entry without a fetch, otherwise fully fetch, normalize,
resolve the thumbnail and persist through the cache store; a Collection
additionally enumerates its children into the frontier; failures are
recorded and never abort the walk. -/
def processOne (world : World) (topts : ThumbOptions) (s : BuildState)
    (id : String) : BuildState :=
  let s1 := { s with visitLog := id :: s.visitLog }
  match lookupDoc world id with
  | none => { s1 with failures := id :: s1.failures }
  | some doc =>
    if hitCheck s1.cache id (hashBytes doc.body) then s1
    else
      let s2 := { s1 with fetchLog := id :: s1.fetchLog }
      match normalize doc doc.version with
      | Except.error _ => { s2 with failures := id :: s2.failures }
      | Except.ok norm =>
        let c2 := cachePut s2.cache id norm (resolveThumbnail norm topts)
        match norm.kind with
        | Kind.manifest => { s2 with cache := c2 }
        | Kind.collection =>
          let sf := claimChildren s2.seen s2.frontier norm.items
          { s2 with cache := c2, seen := sf.1, frontier := sf.2 }

/-- Modelled from the spec: drain the work queue; completion is detected
by the queue reaching empty, and the fuel is a static bound on the number
of dispatches (each id is dispatched at most once). -/
def walkAux (world : World) (topts : ThumbOptions) :
    Nat → BuildState → BuildState
  | 0, s => s
  | Nat.succ fuel, s =>
    match s.frontier with
    | [] => { s with completed := true }
    | id :: rest =>
      walkAux world topts fuel (processOne world topts { s with frontier := rest } id)

/-- Every id that can ever be enqueued by a walk rooted at `uri`: the root
itself, every id the world resolves, and every child id any document
enumerates. -/
def allIds (world : World) (uri : String) : List String :=
  uri :: (keys world ++ world.flatMap (fun p => p.2.children))

/-- Fuel that strictly dominates the number of walk steps. -/
def fuelFor (world : World) (uri : String) : Nat :=
  (allIds world uri).length + 2

/-- Modelled from the spec: the invalidation trigger (section 6): a
configured root uri differing from the stored `collection.uri` clears the
whole cache before the walk begins. -/
def invalidateIfChanged (cache0 : CacheState) (uri : String) : CacheState :=
  match cache0.index.collection with
  | some meta => if meta.uri = uri then cache0 else emptyCache
  | none => cache0

/-- Modelled from the spec: the root uri and content-hash pair gates
whether the rest of the index is trusted (section 3 invariants). -/
def trustedRoot (c : CacheState) (uri : String) (rootHash : Nat) : Bool :=
  match c.index.collection with
  | some meta => decide (meta.uri = uri) && decide (meta.hash = rootHash)
  | none => false

/-- Initial walk state: the root is claimed as seen and pending. -/
def initState (cache1 : CacheState) (uri : String) : BuildState :=
  { seen := [uri], frontier := [uri], visitLog := [], fetchLog := []
    failures := [], cache := cache1, completed := false, fatal := false }

/-- Terminal state of a run whose warm cache was fully trusted: no work
dispatched, no fetch performed, cache left untouched. -/
def skipState (cache1 : CacheState) : BuildState :=
  { seen := [], frontier := [], visitLog := [], fetchLog := []
    failures := [], cache := cache1, completed := true, fatal := false }

/-- Terminal state of a run whose root fetch failed: fatal, nothing was
walked. -/
def fatalState (cache1 : CacheState) (uri : String) : BuildState :=
  { seen := [], frontier := [], visitLog := [], fetchLog := []
    failures := [uri], cache := cache1, completed := true, fatal := true }

/-- Modelled from the spec: one whole build.  The cache is invalidated
first when the configured root uri changed; the root is then resolved (a
root failure is fatal); a warm cache whose stored root uri and hash match
the probed root is trusted wholesale and the walk is skipped with zero
fetches (the root staleness probe is the lightweight hash check of
section 4.6 and is not a counted fetch); otherwise the tree is walked and
the root metadata recorded. -/
def runPipeline (world : World) (topts : ThumbOptions) (uri : String)
    (now : Nat) (cache0 : CacheState) : BuildState :=
  let cache1 := invalidateIfChanged cache0 uri
  match lookupDoc world uri with
  | none => fatalState cache1 uri
  | some rootDoc =>
    let rootHash := hashBytes rootDoc.body
    if trustedRoot cache1 uri rootHash then skipState cache1
    else
      let fin := walkAux world topts (fuelFor world uri) (initState cache1 uri)
      { fin with cache := setMeta fin.cache uri rootHash now }

/-! ## Fetch scheduler (spec section 5) -/

/-- Children a completed fetch discovers and pushes back on the queue. -/
def childIds (world : World) (id : String) : List String :=
  match lookupDoc world id with
  | some d => d.children
  | none => []

/-- Modelled from the spec: the scheduler state of the fixed-size worker
pool: queued pending references, in-flight fetches, and finished ids. -/
structure SchedState where
  pending : List String
  inFlight : List String
  finished : List String
deriving DecidableEq, Repr

/-- Modelled from the spec: one scheduler transition.  A worker may
dispatch the next pending reference only while strictly fewer than `conc`
fetches are in flight; a completing fetch leaves the in-flight set and
pushes its discovered children onto the queue. -/
inductive SchedStep (world : World) (conc : Nat) : SchedState → SchedState → Prop
  | dispatch (id : String) (rest inF fin : List String)
      (hc : inF.length < conc) :
      SchedStep world conc ⟨id :: rest, inF, fin⟩ ⟨rest, id :: inF, fin⟩
  | complete (id : String) (pend inF fin : List String) (hm : id ∈ inF) :
      SchedStep world conc ⟨pend, inF, fin⟩
        ⟨pend ++ childIds world id, inF.erase id, id :: fin⟩

/-- Scheduler start state: only the root is queued, nothing in flight. -/
def initSched (rootUri : String) : SchedState :=
  { pending := [rootUri], inFlight := [], finished := [] }

/-- States the scheduler can reach during one build. -/
def SchedReachable (world : World) (conc : Nat) (rootUri : String)
    (s : SchedState) : Prop :=
  Relation.ReflTransGen (SchedStep world conc) (initSched rootUri) s

/-! ## Walk invariants -/

/-- Traversal invariant of a walk state: the frontier holds no duplicates
and only claimed (seen) ids, the seen set has no duplicates, each id is
dispatched at most once and never returns to the frontier, each id is
fully fetched at most once, and every dispatched id that the world cannot
resolve is recorded as a failure. -/
structure InvT (world : World) (s : BuildState) : Prop where
  frontierNodup : s.frontier.Nodup
  frontierSeen : ∀ x ∈ s.frontier, x ∈ s.seen
  seenNodup : s.seen.Nodup
  visitNodup : s.visitLog.Nodup
  visitSeen : ∀ x ∈ s.visitLog, x ∈ s.seen
  visitNotFrontier : ∀ x ∈ s.visitLog, x ∉ s.frontier
  fetchNodup : s.fetchLog.Nodup
  fetchSeen : ∀ x ∈ s.fetchLog, x ∈ s.seen
  fetchNotFrontier : ∀ x ∈ s.fetchLog, x ∉ s.frontier
  failuresReported : ∀ id ∈ s.visitLog, lookupDoc world id = none → id ∈ s.failures

/-- Cache invariant of a walk state, relative to the entry ids `baseline`
present when the walk began: the index rows stay duplicate-free, every
entry either predates the walk or was produced by a logged fetch, and
every fetched Manifest that normalized successfully has an entry. -/
structure InvC (world : World) (baseline : List String) (s : BuildState) : Prop where
  byIdNodup : (keys s.cache.index.byId).Nodup
  entryNodup : (keys s.cache.entries).Nodup
  entryProvenance : ∀ id ∈ keys s.cache.entries, id ∈ baseline ∨ id ∈ s.fetchLog
  fetchedCached : ∀ id ∈ s.fetchLog, ∀ doc, lookupDoc world id = some doc →
    doc.kind = Kind.manifest → ∀ n, normalize doc doc.version = Except.ok n →
    id ∈ keys s.cache.entries

/-- Termination measure of a walk state: ids not yet claimed plus the
frontier still to drain. -/
def measureW (world : World) (uri : String) (s : BuildState) : Nat :=
  ((allIds world uri).toFinset \ s.seen.toFinset).card + s.frontier.length

end Canopy

namespace CanopyBuild

/-! ## The build orchestration script (`app/scripts/canopy-build.mjs`) -/

/-- Embedding of `getMode` from `app/scripts/canopy-build.mjs`: `args` is
`process.argv.slice(2)`, the two options are the values of the
`CANOPY_MODE` and `npm_lifecycle_event` environment variables (`none` when
unset). -/
def getMode (args : List String) (canopyMode npmLifecycleEvent : Option String) :
    String :=
  if "--dev" ∈ args then "dev"
  else if "--build" ∈ args then "build"
  else if canopyMode = some "dev" then "dev"
  else if canopyMode = some "build" then "build"
  else if npmLifecycleEvent = some "dev" then "dev"
  else if npmLifecycleEvent = some "build" then "build"
  else "build"

/-- ASCII lowercasing of one character, the behavior of JavaScript
`toLowerCase` on the ASCII range. -/
def lowerChar (c : Char) : Char :=
  if 65 ≤ c.toNat ∧ c.toNat ≤ 90 then Char.ofNat (c.toNat + 32) else c

/-- Embedding of JavaScript `String.prototype.toLowerCase`. -/
def lowerStr (s : String) : String := String.mk (s.data.map lowerChar)

/-- Embedding of JavaScript `String.prototype.endsWith`. -/
def strEndsWith (s suffix : String) : Bool :=
  if suffix.data.length ≤ s.data.length then
    decide (s.data.drop (s.data.length - suffix.data.length) = suffix.data)
  else false

/-- A directory tree as seen by `verifyBuildOutput`: plain files,
directories, and directory entries that are neither (skipped by the
`isFile`/`isDirectory` checks). -/
inductive FsEntry where
  | file (name : String)
  | dir (name : String) (entries : List FsEntry)
  | other (name : String)
deriving Repr

mutual

/-- Embedding of the body of `walk` from `verifyBuildOutput` for a single
directory entry: a file contributes one page when its full path,
lowercased, ends in `.html`; a directory recurses; anything else counts
nothing. -/
def countHtmlEntry (dirPath : String) : FsEntry → Nat
  | FsEntry.file name =>
    if strEndsWith (lowerStr (dirPath ++ "/" ++ name)) ".html" then 1 else 0
  | FsEntry.dir name entries => countHtmlList (dirPath ++ "/" ++ name) entries
  | FsEntry.other _ => 0

/-- Embedding of the loop of `walk` over a directory listing. -/
def countHtmlList (dirPath : String) : List FsEntry → Nat
  | [] => 0
  | e :: es => countHtmlEntry dirPath e + countHtmlList dirPath es

end

/-- Embedding of `walk(root)`: a non-existent root directory (`none`)
yields zero pages. -/
def walkCount (root : String) (dir : Option (List FsEntry)) : Nat :=
  match dir with
  | none => 0
  | some es => countHtmlList root es

/-- Embedding of `verifyBuildOutput`: throws exactly when zero HTML pages
were counted under the output directory, otherwise reports the count. -/
def verifyBuildOutput (outDir : String) (dir : Option (List FsEntry)) :
    Except String Nat :=
  let pages := walkCount outDir dir
  if pages = 0 then
    Except.error "CI check failed: no HTML pages generated in site output."
  else Except.ok pages

end CanopyBuild

namespace Canopy

/-! ## Concrete sample inputs used by the witnesses -/

/-- A sample raw document paired with its id. -/
def sampleDoc (i : String) (k : Kind) (ch : List String) (b : Nat) :
    String × RawDoc :=
  (i, { id := i, kind := k, label := i, children := ch, body := b,
        version := 3, preview := [], canvases := [] })

/-- Sample thumbnail options. -/
def sampleOpts : ThumbOptions :=
  { strategy := Strategy.safe, preferredSize := 400, probeLimit := 3 }

/-- A small healthy tree: one root Collection and two Manifests. -/
def sampleWorld1 : World :=
  [sampleDoc "root" Kind.collection ["m1", "m2"] 10,
   sampleDoc "m1" Kind.manifest [] 11,
   sampleDoc "m2" Kind.manifest [] 12]

/-- A tree in which two distinct Collections reference the same
Manifest id. -/
def sampleWorldDedup : World :=
  [sampleDoc "root" Kind.collection ["c1", "c2"] 1,
   sampleDoc "c1" Kind.collection ["m"] 2,
   sampleDoc "c2" Kind.collection ["m"] 3,
   sampleDoc "m" Kind.manifest [] 4]

/-- A cyclic tree: a Collection referencing its ancestor and itself. -/
def sampleWorldCycle : World :=
  [sampleDoc "root" Kind.collection ["a"] 1,
   sampleDoc "a" Kind.collection ["root", "a", "m"] 2,
   sampleDoc "m" Kind.manifest [] 3]

/-- A tree with ten referenced Manifests of which one (m5) is
unreachable. -/
def sampleWorldPartial : World :=
  [sampleDoc "root" Kind.collection
     ["m1", "m2", "m3", "m4", "m5", "m6", "m7", "m8", "m9", "m10"] 1,
   sampleDoc "m1" Kind.manifest [] 21,
   sampleDoc "m2" Kind.manifest [] 22,
   sampleDoc "m3" Kind.manifest [] 23,
   sampleDoc "m4" Kind.manifest [] 24,
   sampleDoc "m6" Kind.manifest [] 26,
   sampleDoc "m7" Kind.manifest [] 27,
   sampleDoc "m8" Kind.manifest [] 28,
   sampleDoc "m9" Kind.manifest [] 29,
   sampleDoc "m10" Kind.manifest [] 30]

/-- A warm cache recorded for a different root uri. -/
def sampleCacheOld : CacheState :=
  { index := { byId := [("x", "x")], collection := some ⟨"old", 99, 1⟩ },
    entries := [] }

/-- A normalized resource with an explicit top-level preview image. -/
def sampleResPreview : NormalizedResource :=
  { id := "r", kind := Kind.manifest, label := "r", items := [],
    contentHash := 0, preview := [⟨"img-a", 300⟩, ⟨"img-b", 500⟩],
    canvases := [] }

/-- A normalized resource with no top-level preview but a probeable
canvas image. -/
def sampleResCanvasOnly : NormalizedResource :=
  { id := "r2", kind := Kind.manifest, label := "r2", items := [],
    contentHash := 0, preview := [], canvases := [[⟨"canvas-img", 400⟩]] }

end Canopy

namespace Canopy

/-! ## Basic lemmas about the association-list operations -/

theorem keys_nil {β : Type} : keys ([] : List (String × β)) = [] := rfl

theorem keys_cons {β : Type} (p : String × β) (l : List (String × β)) :
    keys (p :: l) = p.1 :: keys l := rfl

theorem alistFind_cons {β : Type} (id k : String) (v : β)
    (rest : List (String × β)) :
    alistFind id ((k, v) :: rest) =
      if k = id then some v else alistFind id rest := rfl

theorem alistFind_eq_none {β : Type} (id : String) (l : List (String × β)) :
    alistFind id l = none ↔ id ∉ keys l := by
  induction l with
  | nil => simp [alistFind, keys_nil]
  | cons p rest ih =>
    obtain ⟨k, v⟩ := p
    by_cases hk : k = id
    · subst hk
      rw [alistFind_cons, if_pos rfl, keys_cons]
      simp
    · rw [alistFind_cons, if_neg hk, keys_cons, ih]
      simp only [List.mem_cons]
      constructor
      · intro h hcase
        rcases hcase with h1 | h2
        · exact hk h1.symm
        · exact h h2
      · intro h h2
        exact h (Or.inr h2)

theorem alistFind_mem {β : Type} {id : String} {v : β} :
    ∀ {l : List (String × β)}, alistFind id l = some v → (id, v) ∈ l := by
  intro l
  induction l with
  | nil => intro h; simp [alistFind] at h
  | cons p rest ih =>
    obtain ⟨k, w⟩ := p
    intro h
    by_cases hk : k = id
    · subst hk
      simp [alistFind] at h
      simp [h]
    · simp [alistFind, hk] at h
      exact List.mem_cons_of_mem _ (ih h)

theorem keys_append {β : Type} (l1 l2 : List (String × β)) :
    keys (l1 ++ l2) = keys l1 ++ keys l2 := by
  simp [keys]

/-! ## Lemmas about the cache store -/

theorem upsertEntry_cons (id k : String) (e v : CachedEntry)
    (rest : List (String × CachedEntry)) :
    upsertEntry id e ((k, v) :: rest) =
      if k = id then (id, e) :: rest else (k, v) :: upsertEntry id e rest := rfl

theorem keys_upsert (id : String) (e : CachedEntry) :
    ∀ (l : List (String × CachedEntry)) (x : String),
      x ∈ keys (upsertEntry id e l) ↔ x = id ∨ x ∈ keys l := by
  intro l
  induction l with
  | nil => intro x; simp [upsertEntry, keys_cons, keys_nil]
  | cons p rest ih =>
    obtain ⟨k, v⟩ := p
    intro x
    by_cases hk : k = id
    · subst hk
      rw [upsertEntry_cons, if_pos rfl]
      simp only [keys_cons, List.mem_cons]
      tauto
    · rw [upsertEntry_cons, if_neg hk]
      simp only [keys_cons, List.mem_cons, ih x]
      tauto

theorem keys_upsert_nodup (id : String) (e : CachedEntry) :
    ∀ (l : List (String × CachedEntry)), (keys l).Nodup →
      (keys (upsertEntry id e l)).Nodup := by
  intro l
  induction l with
  | nil => intro _; simp [upsertEntry, keys_cons, keys_nil]
  | cons p rest ih =>
    obtain ⟨k, v⟩ := p
    intro hl
    rw [keys_cons, List.nodup_cons] at hl
    by_cases hk : k = id
    · subst hk
      rw [upsertEntry_cons, if_pos rfl, keys_cons, List.nodup_cons]
      exact hl
    · rw [upsertEntry_cons, if_neg hk, keys_cons, List.nodup_cons]
      constructor
      · intro hmem
        rcases (keys_upsert id e rest k).mp hmem with h | h
        · exact hk h
        · exact hl.1 h
      · exact ih hl.2

theorem cachePut_collection_meta (c : CacheState) (id : String)
    (n : NormalizedResource) (t : Option String) :
    (cachePut c id n t).index.collection = c.index.collection := rfl

theorem entries_cachePut (c : CacheState) (id : String)
    (n : NormalizedResource) (t : Option String) :
    (cachePut c id n t).entries =
      if n.kind = Kind.manifest then
        upsertEntry id ⟨slugFor c id, n, t⟩ c.entries
      else c.entries := rfl

theorem keys_cachePut_byId (c : CacheState) (id : String)
    (n : NormalizedResource) (t : Option String) :
    keys (cachePut c id n t).index.byId = keys c.index.byId ∨
      (keys (cachePut c id n t).index.byId = keys c.index.byId ++ [id] ∧
        id ∉ keys c.index.byId) := by
  cases hfind : alistFind id c.index.byId with
  | some s => left; simp [cachePut, hfind]
  | none =>
    right
    constructor
    · simp [cachePut, hfind, keys_append, keys_cons, keys_nil]
    · exact (alistFind_eq_none id c.index.byId).mp hfind

theorem byIdNodup_cachePut (c : CacheState) (id : String)
    (n : NormalizedResource) (t : Option String)
    (h : (keys c.index.byId).Nodup) :
    (keys (cachePut c id n t).index.byId).Nodup := by
  rcases keys_cachePut_byId c id n t with heq | ⟨heq, hnot⟩
  · rw [heq]; exact h
  · rw [heq, List.nodup_append]
    refine ⟨h, List.nodup_singleton id, ?_⟩
    intro a ha hb
    rw [List.mem_singleton] at hb
    subst hb
    exact hnot ha

theorem entries_cachePut_of_collection (c : CacheState) (id : String)
    (n : NormalizedResource) (t : Option String)
    (h : n.kind = Kind.collection) :
    (cachePut c id n t).entries = c.entries := by
  rw [entries_cachePut, if_neg]
  rw [h]
  intro hb
  cases hb

theorem mem_keys_entries_cachePut (c : CacheState) (id : String)
    (n : NormalizedResource) (t : Option String) (x : String) :
    x ∈ keys (cachePut c id n t).entries ↔
      (n.kind = Kind.manifest ∧ x = id) ∨ x ∈ keys c.entries := by
  cases hk : n.kind with
  | collection =>
    rw [entries_cachePut_of_collection c id n t hk]
    simp [hk]
  | manifest =>
    rw [entries_cachePut, if_pos hk, keys_upsert]
    simp [hk]

theorem entryNodup_cachePut (c : CacheState) (id : String)
    (n : NormalizedResource) (t : Option String)
    (h : (keys c.entries).Nodup) :
    (keys (cachePut c id n t).entries).Nodup := by
  cases hk : n.kind with
  | collection => rw [entries_cachePut_of_collection c id n t hk]; exact h
  | manifest =>
    rw [entries_cachePut, if_pos hk]
    exact keys_upsert_nodup id _ c.entries h

/-! ## Lemmas about the Normalizer -/

theorem normalize_ok_spec {doc : RawDoc} {v : Nat} {n : NormalizedResource}
    (h : normalize doc v = Except.ok n) :
    n.kind = doc.kind ∧ n.items = doc.children := by
  unfold normalize at h
  split at h
  · cases h
    exact ⟨rfl, rfl⟩
  · cases h

/-! ## Lemmas about the Thumbnail Resolver -/

theorem selectClosest_nonempty (p : Nat) (l : List ImgRef) (h : l ≠ []) :
    ∃ i, selectClosest p l = some i := by
  cases l with
  | nil => exact absurd rfl h
  | cons i rest =>
    cases hr : selectClosest p rest with
    | none => exact ⟨i, by simp [selectClosest, hr]⟩
    | some j =>
      by_cases hd : distTo p i.width ≤ distTo p j.width
      · exact ⟨i, by simp [selectClosest, hr, hd]⟩
      · exact ⟨j, by simp [selectClosest, hr, hd]⟩

/-! ## Branch lemmas for the pipeline -/

theorem trustedRoot_true_iff (c : CacheState) (uri : String) (h : Nat) :
    trustedRoot c uri h = true ↔
      ∃ t, c.index.collection = some ⟨uri, h, t⟩ := by
  cases hc : c.index.collection with
  | none => simp [trustedRoot, hc]
  | some meta =>
    simp only [trustedRoot, hc, Bool.and_eq_true, decide_eq_true_eq]
    constructor
    · rintro ⟨h1, h2⟩
      exact ⟨meta.updatedAt, by cases meta; simp_all⟩
    · rintro ⟨t, ht⟩
      cases ht
      simp

theorem runPipeline_root_missing (world : World) (topts : ThumbOptions)
    (uri : String) (now : Nat) (cache0 : CacheState)
    (hL : lookupDoc world uri = none) :
    runPipeline world topts uri now cache0 =
      fatalState (invalidateIfChanged cache0 uri) uri := by
  simp [runPipeline, hL]

theorem runPipeline_trusted (world : World) (topts : ThumbOptions)
    (uri : String) (now : Nat) (cache0 : CacheState) (rootDoc : RawDoc)
    (hL : lookupDoc world uri = some rootDoc)
    (ht : trustedRoot (invalidateIfChanged cache0 uri) uri
      (hashBytes rootDoc.body) = true) :
    runPipeline world topts uri now cache0 =
      skipState (invalidateIfChanged cache0 uri) := by
  simp [runPipeline, hL, ht]

theorem runPipeline_walk (world : World) (topts : ThumbOptions)
    (uri : String) (now : Nat) (cache0 : CacheState) (rootDoc : RawDoc)
    (hL : lookupDoc world uri = some rootDoc)
    (ht : trustedRoot (invalidateIfChanged cache0 uri) uri
      (hashBytes rootDoc.body) = false) :
    runPipeline world topts uri now cache0 =
      { walkAux world topts (fuelFor world uri)
          (initState (invalidateIfChanged cache0 uri) uri) with
        cache := setMeta (walkAux world topts (fuelFor world uri)
          (initState (invalidateIfChanged cache0 uri) uri)).cache
          uri (hashBytes rootDoc.body) now } := by
  simp [runPipeline, hL, ht]

end Canopy

namespace Canopy

/-! ## Claim C7 -/

/-- Claim C7: normalization is deterministic: two invocations performed in
any two contexts (wall-clock time, invocation order) on the same input
byte stream and the same declared schema version produce the identical
normalized structure. -/
theorem claim7_normalize_deterministic (c1 c2 : InvocationCtx)
    (doc : RawDoc) (v : Nat) :
    normalizeInvoke c1 doc v = normalizeInvoke c2 doc v := rfl

/-! ## Claim C8 -/

/-- Claim C8: with the concurrency limit set to `conc`, every scheduler
state reachable during a build has at most `conc` fetches in flight. -/
theorem claim8_concurrency_bound (world : World) (conc : Nat)
    (rootUri : String) (s : SchedState)
    (h : SchedReachable world conc rootUri s) :
    s.inFlight.length ≤ conc := by
  induction h with
  | refl => simp [initSched]
  | tail _ hstep ih =>
    cases hstep with
    | dispatch id rest inF fin hc => simpa using hc
    | complete id pend inF fin hm =>
      have he : (inF.erase id).length = inF.length - 1 :=
        List.length_erase_of_mem hm
      simp only [he] at ih ⊢
      omega

/-- Witness for claim C8: the initial scheduler state is reachable and
satisfies the bound at concurrency two. -/
theorem claim8_concurrency_bound_witness :
    SchedReachable [] 2 "root" (initSched "root") ∧
      (initSched "root").inFlight.length ≤ 2 :=
  ⟨Relation.ReflTransGen.refl,
    claim8_concurrency_bound [] 2 "root" (initSched "root")
      Relation.ReflTransGen.refl⟩

/-! ## Claim C6 -/

/-- Claim C6: for a normalized resource that declares an explicit
top-level preview image the safe and the expanded (unsafe) strategies
resolve the same thumbnail; a resource with no top-level preview resolves
to `none` under safe while the expanded strategy may still resolve an
image; and `none` (not an error) is the result whenever no suitable image
exists under the active strategy. -/
theorem claim6_thumbnail_strategies (res : NormalizedResource) (p lim : Nat) :
    (res.preview ≠ [] →
      resolveThumbnail res ⟨Strategy.safe, p, lim⟩ =
        resolveThumbnail res ⟨Strategy.expanded, p, lim⟩) ∧
    (res.preview = [] →
      resolveThumbnail res ⟨Strategy.safe, p, lim⟩ = none) ∧
    (res.preview = [] → List.flatten (List.take lim res.canvases) = [] →
      resolveThumbnail res ⟨Strategy.expanded, p, lim⟩ = none) ∧
    (∃ (res2 : NormalizedResource) (p2 lim2 : Nat),
      res2.preview = [] ∧
      resolveThumbnail res2 ⟨Strategy.safe, p2, lim2⟩ = none ∧
      resolveThumbnail res2 ⟨Strategy.expanded, p2, lim2⟩ ≠ none) := by
  refine ⟨?_, ?_, ?_, ?_⟩
  · intro hne
    obtain ⟨i, hi⟩ := selectClosest_nonempty p res.preview hne
    simp [resolveThumbnail, hi]
  · intro hempty
    simp [resolveThumbnail, hempty, selectClosest]
  · intro hempty hflat
    simp [resolveThumbnail, hempty, hflat, selectClosest]
  · refine ⟨sampleResCanvasOnly, 400, 1, rfl, rfl, ?_⟩
    decide

/-- Witness for claim C6: a resource with an explicit top-level preview
resolves identically under both strategies, concretely. -/
theorem claim6_thumbnail_strategies_witness :
    sampleResPreview.preview ≠ [] ∧
      resolveThumbnail sampleResPreview ⟨Strategy.safe, 400, 3⟩ =
        resolveThumbnail sampleResPreview ⟨Strategy.expanded, 400, 3⟩ :=
  ⟨by decide, (claim6_thumbnail_strategies sampleResPreview 400 3).1 (by decide)⟩

/-! ## Claim C2 -/

/-- Claim C2: a configured root uri that differs from the stored
`collection.uri` invalidates the entire cache before the walk begins: the
whole run is indistinguishable from a run over the empty cache, so no
entry or slug of the prior root survives into the next build. -/
theorem claim2_uri_change_invalidates (world : World) (topts : ThumbOptions)
    (uri : String) (now : Nat) (cache0 : CacheState) (meta : RootMeta)
    (hmeta : cache0.index.collection = some meta) (hne : meta.uri ≠ uri) :
    runPipeline world topts uri now cache0 =
      runPipeline world topts uri now emptyCache := by
  have h1 : invalidateIfChanged cache0 uri = emptyCache := by
    unfold invalidateIfChanged
    rw [hmeta]
    exact if_neg hne
  have h2 : invalidateIfChanged emptyCache uri = emptyCache := rfl
  unfold runPipeline
  rw [h1, h2]

/-- Witness for claim C2: concretely, a warm cache recorded for root
`old` is fully discarded when the configured root becomes `root`. -/
theorem claim2_uri_change_invalidates_witness :
    sampleCacheOld.index.collection = some ⟨"old", 99, 1⟩ ∧
      ("old" : String) ≠ "root" ∧
      runPipeline sampleWorld1 sampleOpts "root" 0 sampleCacheOld =
        runPipeline sampleWorld1 sampleOpts "root" 0 emptyCache :=
  ⟨rfl, by decide,
    claim2_uri_change_invalidates sampleWorld1 sampleOpts "root" 0
      sampleCacheOld ⟨"old", 99, 1⟩ rfl (by decide)⟩

end Canopy

namespace CanopyBuild

/-! ## Claim C9 -/

/-- Claim C9: `getMode` resolves the run mode with strict precedence: a
CLI flag wins (with `--dev` checked before `--build`), otherwise
`CANOPY_MODE` set to `dev` or `build` wins, otherwise
`npm_lifecycle_event` equal to `dev` or `build` decides, and in every
remaining case the result is `build`. -/
theorem claim9_getMode_precedence (args : List String)
    (cm npm : Option String) :
    ("--dev" ∈ args → getMode args cm npm = "dev") ∧
    ("--dev" ∉ args → "--build" ∈ args → getMode args cm npm = "build") ∧
    ("--dev" ∉ args → "--build" ∉ args → cm = some "dev" →
      getMode args cm npm = "dev") ∧
    ("--dev" ∉ args → "--build" ∉ args → cm = some "build" →
      getMode args cm npm = "build") ∧
    ("--dev" ∉ args → "--build" ∉ args → cm ≠ some "dev" →
      cm ≠ some "build" → npm = some "dev" → getMode args cm npm = "dev") ∧
    ("--dev" ∉ args → "--build" ∉ args → cm ≠ some "dev" →
      cm ≠ some "build" → npm = some "build" →
      getMode args cm npm = "build") ∧
    ("--dev" ∉ args → "--build" ∉ args → cm ≠ some "dev" →
      cm ≠ some "build" → npm ≠ some "dev" → npm ≠ some "build" →
      getMode args cm npm = "build") := by
  refine ⟨?_, ?_, ?_, ?_, ?_, ?_, ?_⟩
  · intro h1
    simp [getMode, h1]
  · intro h1 h2
    simp [getMode, h1, h2]
  · intro h1 h2 h3
    simp [getMode, h1, h2, h3]
  · intro h1 h2 h3
    subst h3
    simp [getMode, h1, h2]
  · intro h1 h2 h3 h4 h5
    simp [getMode, h1, h2, h3, h4, h5]
  · intro h1 h2 h3 h4 h5
    subst h5
    simp [getMode, h1, h2, h3, h4]
  · intro h1 h2 h3 h4 h5 h6
    simp [getMode, h1, h2, h3, h4, h5, h6]

/-- Witness for claim C9: with no flag and no recognized environment
value the mode defaults to `build`, concretely. -/
theorem claim9_getMode_precedence_witness :
    ("--dev" ∉ (["--verify"] : List String)) ∧
      getMode ["--verify"] (some "other") none = "build" :=
  ⟨by decide,
    (claim9_getMode_precedence ["--verify"] (some "other") none).2.2.2.2.2.2
      (by decide) (by decide) (by decide) (by decide) (by decide) (by decide)⟩

/-! ## Claim C10 -/

/-- Claim C10: `verifyBuildOutput` throws exactly when the recursive count
of files whose lowercased path ends in `.html` under the output directory
is zero, and a non-existent output directory counts zero pages and
therefore throws. -/
theorem claim10_verifyBuildOutput_throws (outDir : String)
    (dir : Option (List FsEntry)) :
    ((∃ msg, verifyBuildOutput outDir dir = Except.error msg) ↔
      walkCount outDir dir = 0) ∧
    walkCount outDir none = 0 ∧
    (∃ msg, verifyBuildOutput outDir none = Except.error msg) := by
  refine ⟨?_, rfl, ?_⟩
  · by_cases h : walkCount outDir dir = 0
    · simp [verifyBuildOutput, h]
    · simp [verifyBuildOutput, h]
  · exact ⟨_, rfl⟩

/-- Witness for claim C10: a concrete tree with one nested `.HTML` page
passes, and an empty tree throws. -/
theorem claim10_verifyBuildOutput_throws_witness :
    walkCount "site"
        (some [FsEntry.dir "works" [FsEntry.file "a.HTML"], FsEntry.other "x.html"]) = 1 ∧
    ¬ (∃ msg, verifyBuildOutput "site"
        (some [FsEntry.dir "works" [FsEntry.file "a.HTML"], FsEntry.other "x.html"]) =
      Except.error msg) ∧
    (∃ msg, verifyBuildOutput "site" none = Except.error msg) := by
  refine ⟨by decide, ?_, (claim10_verifyBuildOutput_throws "site" none).2.2⟩
  rw [(claim10_verifyBuildOutput_throws "site"
    (some [FsEntry.dir "works" [FsEntry.file "a.HTML"], FsEntry.other "x.html"])).1]
  decide

end CanopyBuild

namespace Canopy

/-! ## Claim C1 -/

/-- Claim C1: a root whose content is unchanged makes a second run over
the warm cache of a first (non-fatal) run perform zero network fetches
and leave the whole cache, every entry included, byte-identical. -/
theorem claim1_warm_cache_idempotent (world : World) (topts : ThumbOptions)
    (uri : String) (now1 now2 : Nat) (cache0 : CacheState)
    (h : (runPipeline world topts uri now1 cache0).fatal = false) :
    (runPipeline world topts uri now2
        (runPipeline world topts uri now1 cache0).cache).fetchLog = [] ∧
    (runPipeline world topts uri now2
        (runPipeline world topts uri now1 cache0).cache).cache =
      (runPipeline world topts uri now1 cache0).cache ∧
    (runPipeline world topts uri now2
        (runPipeline world topts uri now1 cache0).cache).fatal = false := by
  cases hL : lookupDoc world uri with
  | none =>
    rw [runPipeline_root_missing world topts uri now1 cache0 hL] at h
    cases h
  | some rootDoc =>
    have hmeta : ∃ t, (runPipeline world topts uri now1 cache0).cache.index.collection
        = some ⟨uri, hashBytes rootDoc.body, t⟩ := by
      by_cases ht : trustedRoot (invalidateIfChanged cache0 uri) uri
          (hashBytes rootDoc.body) = true
      · rw [runPipeline_trusted world topts uri now1 cache0 rootDoc hL ht]
        exact (trustedRoot_true_iff _ uri _).mp ht
      · have ht2 : trustedRoot (invalidateIfChanged cache0 uri) uri
            (hashBytes rootDoc.body) = false := by
          revert ht
          cases trustedRoot (invalidateIfChanged cache0 uri) uri
            (hashBytes rootDoc.body) <;> simp
        rw [runPipeline_walk world topts uri now1 cache0 rootDoc hL ht2]
        exact ⟨now1, rfl⟩
    obtain ⟨t, hm⟩ := hmeta
    have hinv2 : invalidateIfChanged
        (runPipeline world topts uri now1 cache0).cache uri =
        (runPipeline world topts uri now1 cache0).cache := by
      unfold invalidateIfChanged
      rw [hm]
      exact if_pos rfl
    have ht2 : trustedRoot (runPipeline world topts uri now1 cache0).cache uri
        (hashBytes rootDoc.body) = true :=
      (trustedRoot_true_iff _ uri _).mpr ⟨t, hm⟩
    have hrun2 : runPipeline world topts uri now2
        (runPipeline world topts uri now1 cache0).cache =
        skipState (runPipeline world topts uri now1 cache0).cache := by
      have := runPipeline_trusted world topts uri now2
        (runPipeline world topts uri now1 cache0).cache rootDoc hL
        (by rw [hinv2]; exact ht2)
      rw [this, hinv2]
    rw [hrun2]
    exact ⟨rfl, rfl, rfl⟩

/-- Witness for claim C1: concretely, the second run over the small
sample tree performs zero fetches and returns the identical cache. -/
theorem claim1_warm_cache_idempotent_witness :
    (runPipeline sampleWorld1 sampleOpts "root" 5 emptyCache).fatal = false ∧
      ((runPipeline sampleWorld1 sampleOpts "root" 9
          (runPipeline sampleWorld1 sampleOpts "root" 5 emptyCache).cache).fetchLog = [] ∧
        (runPipeline sampleWorld1 sampleOpts "root" 9
          (runPipeline sampleWorld1 sampleOpts "root" 5 emptyCache).cache).cache =
          (runPipeline sampleWorld1 sampleOpts "root" 5 emptyCache).cache ∧
        (runPipeline sampleWorld1 sampleOpts "root" 9
          (runPipeline sampleWorld1 sampleOpts "root" 5 emptyCache).cache).fatal = false) :=
  ⟨by decide,
    claim1_warm_cache_idempotent sampleWorld1 sampleOpts "root" 5 9 emptyCache
      (by decide)⟩

end Canopy

namespace Canopy

/-! ## Lemmas about child claiming -/

theorem claimChildren_nil (seen fr : List String) :
    claimChildren seen fr [] = (seen, fr) := rfl

theorem claimChildren_cons (seen fr : List String) (c : String)
    (cs : List String) :
    claimChildren seen fr (c :: cs) =
      if c ∈ seen then claimChildren seen fr cs
      else claimChildren (c :: seen) (c :: fr) cs := rfl

theorem claimChildren_seen_mono (cs : List String) :
    ∀ seen fr x, x ∈ seen → x ∈ (claimChildren seen fr cs).1 := by
  induction cs with
  | nil => intro seen fr x hx; rw [claimChildren_nil]; exact hx
  | cons c cs ih =>
    intro seen fr x hx
    rw [claimChildren_cons]
    by_cases hc : c ∈ seen
    · rw [if_pos hc]; exact ih seen fr x hx
    · rw [if_neg hc]; exact ih _ _ x (List.mem_cons_of_mem _ hx)

theorem claimChildren_seen_mem (cs : List String) :
    ∀ seen fr x, x ∈ (claimChildren seen fr cs).1 → x ∈ seen ∨ x ∈ cs := by
  induction cs with
  | nil => intro seen fr x hx; rw [claimChildren_nil] at hx; exact Or.inl hx
  | cons c cs ih =>
    intro seen fr x hx
    rw [claimChildren_cons] at hx
    by_cases hc : c ∈ seen
    · rw [if_pos hc] at hx
      rcases ih seen fr x hx with h | h
      · exact Or.inl h
      · exact Or.inr (List.mem_cons_of_mem _ h)
    · rw [if_neg hc] at hx
      rcases ih _ _ x hx with h | h
      · rcases List.mem_cons.mp h with h1 | h1
        · exact Or.inr (h1 ▸ List.mem_cons_self c cs)
        · exact Or.inl h1
      · exact Or.inr (List.mem_cons_of_mem _ h)

theorem claimChildren_seen_nodup (cs : List String) :
    ∀ seen fr, seen.Nodup → (claimChildren seen fr cs).1.Nodup := by
  induction cs with
  | nil => intro seen fr h; rw [claimChildren_nil]; exact h
  | cons c cs ih =>
    intro seen fr h
    rw [claimChildren_cons]
    by_cases hc : c ∈ seen
    · rw [if_pos hc]; exact ih seen fr h
    · rw [if_neg hc]; exact ih _ _ (List.nodup_cons.mpr ⟨hc, h⟩)

theorem claimChildren_frontier_mem (cs : List String) :
    ∀ seen fr y, y ∈ (claimChildren seen fr cs).2 → y ∈ fr ∨ y ∉ seen := by
  induction cs with
  | nil => intro seen fr y hy; rw [claimChildren_nil] at hy; exact Or.inl hy
  | cons c cs ih =>
    intro seen fr y hy
    rw [claimChildren_cons] at hy
    by_cases hc : c ∈ seen
    · rw [if_pos hc] at hy; exact ih seen fr y hy
    · rw [if_neg hc] at hy
      rcases ih _ _ y hy with h | h
      · rcases List.mem_cons.mp h with h1 | h1
        · exact Or.inr (h1 ▸ hc)
        · exact Or.inl h1
      · exact Or.inr fun hy2 => h (List.mem_cons_of_mem _ hy2)

theorem claimChildren_frontier_sub_seen (cs : List String) :
    ∀ seen fr, (∀ x ∈ fr, x ∈ seen) →
      ∀ y ∈ (claimChildren seen fr cs).2, y ∈ (claimChildren seen fr cs).1 := by
  induction cs with
  | nil =>
    intro seen fr hsub y hy
    rw [claimChildren_nil] at hy ⊢
    exact hsub y hy
  | cons c cs ih =>
    intro seen fr hsub y hy
    rw [claimChildren_cons] at hy ⊢
    by_cases hc : c ∈ seen
    · rw [if_pos hc] at hy ⊢; exact ih seen fr hsub y hy
    · rw [if_neg hc] at hy ⊢
      refine ih _ _ ?_ y hy
      intro x hx
      rcases List.mem_cons.mp hx with h1 | h1
      · exact h1 ▸ List.mem_cons_self c seen
      · exact List.mem_cons_of_mem _ (hsub x h1)

theorem claimChildren_frontier_nodup (cs : List String) :
    ∀ seen fr, fr.Nodup → (∀ x ∈ fr, x ∈ seen) →
      (claimChildren seen fr cs).2.Nodup := by
  induction cs with
  | nil => intro seen fr h _; rw [claimChildren_nil]; exact h
  | cons c cs ih =>
    intro seen fr h hsub
    rw [claimChildren_cons]
    by_cases hc : c ∈ seen
    · rw [if_pos hc]; exact ih seen fr h hsub
    · rw [if_neg hc]
      refine ih _ _ ?_ ?_
      · refine List.nodup_cons.mpr ⟨fun hcf => hc (hsub c hcf), h⟩
      · intro x hx
        rcases List.mem_cons.mp hx with h1 | h1
        · exact h1 ▸ List.mem_cons_self c seen
        · exact List.mem_cons_of_mem _ (hsub x h1)

theorem claimChildren_not_frontier (cs seen fr : List String) (x : String)
    (hx : x ∈ seen) (hnf : x ∉ fr) :
    x ∉ (claimChildren seen fr cs).2 := by
  intro hmem
  rcases claimChildren_frontier_mem cs seen fr x hmem with h | h
  · exact hnf h
  · exact h hx

theorem claimChildren_measure (cand : Finset String) (cs : List String) :
    ∀ seen fr, (∀ c ∈ cs, c ∈ cand) →
      (cand \ (claimChildren seen fr cs).1.toFinset).card +
          (claimChildren seen fr cs).2.length =
        (cand \ seen.toFinset).card + fr.length := by
  induction cs with
  | nil => intro seen fr _; rw [claimChildren_nil]
  | cons c cs ih =>
    intro seen fr hsub
    have hsub2 : ∀ x ∈ cs, x ∈ cand := fun x hx => hsub x (List.mem_cons_of_mem _ hx)
    rw [claimChildren_cons]
    by_cases hc : c ∈ seen
    · rw [if_pos hc]; exact ih seen fr hsub2
    · rw [if_neg hc]
      have hcand : c ∈ cand := hsub c (List.mem_cons_self c cs)
      have hcmem : c ∈ cand \ seen.toFinset :=
        Finset.mem_sdiff.mpr ⟨hcand, fun hcf => hc (List.mem_toFinset.mp hcf)⟩
      have key : (cand \ (c :: seen).toFinset).card =
          (cand \ seen.toFinset).card - 1 := by
        rw [List.toFinset_cons, Finset.sdiff_insert, Finset.card_erase_of_mem hcmem]
      have hpos : 0 < (cand \ seen.toFinset).card :=
        Finset.card_pos.mpr ⟨c, hcmem⟩
      rw [ih (c :: seen) (c :: fr) hsub2, key, List.length_cons]
      omega

end Canopy

namespace Canopy

/-! ## Branch lemmas for dispatching one reference -/

theorem processOne_none (world : World) (topts : ThumbOptions)
    (s : BuildState) (id : String) (hL : lookupDoc world id = none) :
    processOne world topts s id =
      { s with visitLog := id :: s.visitLog, failures := id :: s.failures } := by
  simp [processOne, hL]

theorem processOne_hit (world : World) (topts : ThumbOptions)
    (s : BuildState) (id : String) (doc : RawDoc)
    (hL : lookupDoc world id = some doc)
    (hh : hitCheck s.cache id (hashBytes doc.body) = true) :
    processOne world topts s id = { s with visitLog := id :: s.visitLog } := by
  simp [processOne, hL, hh]

theorem processOne_fetch_error (world : World) (topts : ThumbOptions)
    (s : BuildState) (id : String) (doc : RawDoc) (e : NormError)
    (hL : lookupDoc world id = some doc)
    (hh : hitCheck s.cache id (hashBytes doc.body) = false)
    (hn : normalize doc doc.version = Except.error e) :
    processOne world topts s id =
      { s with visitLog := id :: s.visitLog, fetchLog := id :: s.fetchLog,
               failures := id :: s.failures } := by
  simp [processOne, hL, hh, hn]

theorem processOne_fetch_manifest (world : World) (topts : ThumbOptions)
    (s : BuildState) (id : String) (doc : RawDoc) (n : NormalizedResource)
    (hL : lookupDoc world id = some doc)
    (hh : hitCheck s.cache id (hashBytes doc.body) = false)
    (hn : normalize doc doc.version = Except.ok n)
    (hk : n.kind = Kind.manifest) :
    processOne world topts s id =
      { s with visitLog := id :: s.visitLog, fetchLog := id :: s.fetchLog,
               cache := cachePut s.cache id n (resolveThumbnail n topts) } := by
  simp [processOne, hL, hh, hn, hk]

theorem processOne_fetch_collection (world : World) (topts : ThumbOptions)
    (s : BuildState) (id : String) (doc : RawDoc) (n : NormalizedResource)
    (hL : lookupDoc world id = some doc)
    (hh : hitCheck s.cache id (hashBytes doc.body) = false)
    (hn : normalize doc doc.version = Except.ok n)
    (hk : n.kind = Kind.collection) :
    processOne world topts s id =
      { s with visitLog := id :: s.visitLog, fetchLog := id :: s.fetchLog,
               cache := cachePut s.cache id n (resolveThumbnail n topts),
               seen := (claimChildren s.seen s.frontier n.items).1,
               frontier := (claimChildren s.seen s.frontier n.items).2 } := by
  simp [processOne, hL, hh, hn, hk]

end Canopy

namespace Canopy

/-! ## Step lemmas for the walk -/

theorem processOne_fatal (world : World) (topts : ThumbOptions)
    (s : BuildState) (id : String) :
    (processOne world topts s id).fatal = s.fatal := by
  cases hL : lookupDoc world id with
  | none => rw [processOne_none world topts s id hL]
  | some doc =>
    by_cases hh : hitCheck s.cache id (hashBytes doc.body) = true
    · rw [processOne_hit world topts s id doc hL hh]
    · have hh2 : hitCheck s.cache id (hashBytes doc.body) = false := by
        revert hh; cases hitCheck s.cache id (hashBytes doc.body) <;> simp
      cases hn : normalize doc doc.version with
      | error e => rw [processOne_fetch_error world topts s id doc e hL hh2 hn]
      | ok n =>
        cases hk : n.kind with
        | manifest =>
          rw [processOne_fetch_manifest world topts s id doc n hL hh2 hn hk]
        | collection =>
          rw [processOne_fetch_collection world topts s id doc n hL hh2 hn hk]

theorem children_sub_allIds (world : World) (uri id : String) (doc : RawDoc)
    (hL : lookupDoc world id = some doc) :
    ∀ c ∈ doc.children, c ∈ (allIds world uri).toFinset := by
  intro c hc
  have hmem : (id, doc) ∈ world := alistFind_mem hL
  refine List.mem_toFinset.mpr ?_
  unfold allIds
  refine List.mem_cons_of_mem _ (List.mem_append.mpr (Or.inr ?_))
  exact List.mem_flatMap.mpr ⟨(id, doc), hmem, hc⟩

theorem processOne_measure (world : World) (topts : ThumbOptions)
    (uri : String) (s : BuildState) (id : String) (rest : List String)
    (hf : s.frontier = id :: rest) :
    measureW world uri (processOne world topts { s with frontier := rest } id) <
      measureW world uri s := by
  have hlen : s.frontier.length = rest.length + 1 := by rw [hf, List.length_cons]
  cases hL : lookupDoc world id with
  | none =>
    rw [processOne_none world topts _ id hL]
    simp only [measureW]
    omega
  | some doc =>
    by_cases hh : hitCheck s.cache id (hashBytes doc.body) = true
    · rw [processOne_hit world topts { s with frontier := rest } id doc hL hh]
      simp only [measureW]
      omega
    · have hh2 : hitCheck s.cache id (hashBytes doc.body) = false := by
        revert hh; cases hitCheck s.cache id (hashBytes doc.body) <;> simp
      cases hn : normalize doc doc.version with
      | error e =>
        rw [processOne_fetch_error world topts { s with frontier := rest } id doc e hL hh2 hn]
        simp only [measureW]
        omega
      | ok n =>
        cases hk : n.kind with
        | manifest =>
          rw [processOne_fetch_manifest world topts { s with frontier := rest } id doc n hL hh2 hn hk]
          simp only [measureW]
          omega
        | collection =>
          rw [processOne_fetch_collection world topts { s with frontier := rest } id doc n hL hh2 hn hk]
          simp only [measureW]
          have hitems : n.items = doc.children := (normalize_ok_spec hn).2
          have hsub : ∀ c ∈ n.items, c ∈ (allIds world uri).toFinset := by
            rw [hitems]
            exact children_sub_allIds world uri id doc hL
          have hkey := claimChildren_measure ((allIds world uri).toFinset)
            n.items s.seen rest hsub
          omega

theorem measure_init (world : World) (uri : String) (cache1 : CacheState) :
    measureW world uri (initState cache1 uri) < fuelFor world uri := by
  have h1 : ((allIds world uri).toFinset \
      ([uri] : List String).toFinset).card ≤ (allIds world uri).toFinset.card :=
    Finset.card_le_card Finset.sdiff_subset
  have h2 : (allIds world uri).toFinset.card ≤ (allIds world uri).length :=
    List.toFinset_card_le _
  simp only [measureW, initState, fuelFor, List.length_cons, List.length_nil]
  omega

theorem walkAux_zero (world : World) (topts : ThumbOptions) (s : BuildState) :
    walkAux world topts 0 s = s := rfl

theorem walkAux_succ (world : World) (topts : ThumbOptions) (fuel : Nat)
    (s : BuildState) :
    walkAux world topts (fuel + 1) s =
      match s.frontier with
      | [] => { s with completed := true }
      | id :: rest =>
        walkAux world topts fuel (processOne world topts { s with frontier := rest } id) := rfl

theorem walkAux_completed (world : World) (topts : ThumbOptions) (uri : String) :
    ∀ (fuel : Nat) (s : BuildState), measureW world uri s < fuel →
      (walkAux world topts fuel s).completed = true := by
  intro fuel
  induction fuel with
  | zero => intro s h; exact absurd h (Nat.not_lt_zero _)
  | succ n ih =>
    intro s h
    rw [walkAux_succ]
    cases hf : s.frontier with
    | nil => rfl
    | cons id rest =>
      refine ih _ ?_
      have hdec := processOne_measure world topts uri s id rest hf
      omega

theorem invT_processOne (world : World) (topts : ThumbOptions)
    (s : BuildState) (id : String) (rest : List String)
    (h : InvT world s) (hf : s.frontier = id :: rest) :
    InvT world (processOne world topts { s with frontier := rest } id) := by
  have hfN : (id :: rest).Nodup := by rw [← hf]; exact h.frontierNodup
  have hidR : id ∉ rest := (List.nodup_cons.mp hfN).1
  have hrestN : rest.Nodup := (List.nodup_cons.mp hfN).2
  have hidS : id ∈ s.seen :=
    h.frontierSeen id (by rw [hf]; exact List.mem_cons_self id rest)
  have hrestS : ∀ x ∈ rest, x ∈ s.seen := fun x hx =>
    h.frontierSeen x (by rw [hf]; exact List.mem_cons_of_mem _ hx)
  have hidV : id ∉ s.visitLog := fun hv =>
    h.visitNotFrontier id hv (by rw [hf]; exact List.mem_cons_self id rest)
  have hidG : id ∉ s.fetchLog := fun hg =>
    h.fetchNotFrontier id hg (by rw [hf]; exact List.mem_cons_self id rest)
  have hvNR : ∀ x ∈ s.visitLog, x ∉ rest := fun x hx hr =>
    h.visitNotFrontier x hx (by rw [hf]; exact List.mem_cons_of_mem _ hr)
  have hgNR : ∀ x ∈ s.fetchLog, x ∉ rest := fun x hx hr =>
    h.fetchNotFrontier x hx (by rw [hf]; exact List.mem_cons_of_mem _ hr)
  cases hL : lookupDoc world id with
  | none =>
    rw [processOne_none world topts { s with frontier := rest } id hL]
    refine ⟨hrestN, hrestS, h.seenNodup,
      List.nodup_cons.mpr ⟨hidV, h.visitNodup⟩, ?_, ?_,
      h.fetchNodup, h.fetchSeen, hgNR, ?_⟩
    · intro x hx
      rcases List.mem_cons.mp hx with he | h2
      · rw [he]; exact hidS
      · exact h.visitSeen x h2
    · intro x hx
      rcases List.mem_cons.mp hx with he | h2
      · rw [he]; exact hidR
      · exact hvNR x h2
    · intro y hy hln
      rcases List.mem_cons.mp hy with he | h2
      · rw [he]; exact List.mem_cons_self id s.failures
      · exact List.mem_cons_of_mem _ (h.failuresReported y h2 hln)
  | some doc =>
    by_cases hh : hitCheck s.cache id (hashBytes doc.body) = true
    · rw [processOne_hit world topts { s with frontier := rest } id doc hL hh]
      refine ⟨hrestN, hrestS, h.seenNodup,
        List.nodup_cons.mpr ⟨hidV, h.visitNodup⟩, ?_, ?_,
        h.fetchNodup, h.fetchSeen, hgNR, ?_⟩
      · intro x hx
        rcases List.mem_cons.mp hx with he | h2
        · rw [he]; exact hidS
        · exact h.visitSeen x h2
      · intro x hx
        rcases List.mem_cons.mp hx with he | h2
        · rw [he]; exact hidR
        · exact hvNR x h2
      · intro y hy hln
        rcases List.mem_cons.mp hy with he | h2
        · rw [he] at hln; rw [hL] at hln; cases hln
        · exact h.failuresReported y h2 hln
    · have hh2 : hitCheck s.cache id (hashBytes doc.body) = false := by
        revert hh; cases hitCheck s.cache id (hashBytes doc.body) <;> simp
      cases hn : normalize doc doc.version with
      | error e =>
        rw [processOne_fetch_error world topts { s with frontier := rest } id doc e hL hh2 hn]
        refine ⟨hrestN, hrestS, h.seenNodup,
          List.nodup_cons.mpr ⟨hidV, h.visitNodup⟩, ?_, ?_,
          List.nodup_cons.mpr ⟨hidG, h.fetchNodup⟩, ?_, ?_, ?_⟩
        · intro x hx
          rcases List.mem_cons.mp hx with he | h2
          · rw [he]; exact hidS
          · exact h.visitSeen x h2
        · intro x hx
          rcases List.mem_cons.mp hx with he | h2
          · rw [he]; exact hidR
          · exact hvNR x h2
        · intro x hx
          rcases List.mem_cons.mp hx with he | h2
          · rw [he]; exact hidS
          · exact h.fetchSeen x h2
        · intro x hx
          rcases List.mem_cons.mp hx with he | h2
          · rw [he]; exact hidR
          · exact hgNR x h2
        · intro y hy hln
          rcases List.mem_cons.mp hy with he | h2
          · rw [he]; exact List.mem_cons_self id s.failures
          · exact List.mem_cons_of_mem _ (h.failuresReported y h2 hln)
      | ok n =>
        cases hk : n.kind with
        | manifest =>
          rw [processOne_fetch_manifest world topts { s with frontier := rest } id doc n hL hh2 hn hk]
          refine ⟨hrestN, hrestS, h.seenNodup,
            List.nodup_cons.mpr ⟨hidV, h.visitNodup⟩, ?_, ?_,
            List.nodup_cons.mpr ⟨hidG, h.fetchNodup⟩, ?_, ?_, ?_⟩
          · intro x hx
            rcases List.mem_cons.mp hx with he | h2
            · rw [he]; exact hidS
            · exact h.visitSeen x h2
          · intro x hx
            rcases List.mem_cons.mp hx with he | h2
            · rw [he]; exact hidR
            · exact hvNR x h2
          · intro x hx
            rcases List.mem_cons.mp hx with he | h2
            · rw [he]; exact hidS
            · exact h.fetchSeen x h2
          · intro x hx
            rcases List.mem_cons.mp hx with he | h2
            · rw [he]; exact hidR
            · exact hgNR x h2
          · intro y hy hln
            rcases List.mem_cons.mp hy with he | h2
            · rw [he] at hln; rw [hL] at hln; cases hln
            · exact h.failuresReported y h2 hln
        | collection =>
          rw [processOne_fetch_collection world topts { s with frontier := rest } id doc n hL hh2 hn hk]
          refine ⟨claimChildren_frontier_nodup n.items s.seen rest hrestN hrestS,
            claimChildren_frontier_sub_seen n.items s.seen rest hrestS,
            claimChildren_seen_nodup n.items s.seen rest h.seenNodup,
            List.nodup_cons.mpr ⟨hidV, h.visitNodup⟩, ?_, ?_,
            List.nodup_cons.mpr ⟨hidG, h.fetchNodup⟩, ?_, ?_, ?_⟩
          · intro x hx
            rcases List.mem_cons.mp hx with he | h2
            · rw [he]; exact claimChildren_seen_mono n.items s.seen rest id hidS
            · exact claimChildren_seen_mono n.items s.seen rest x (h.visitSeen x h2)
          · intro x hx
            rcases List.mem_cons.mp hx with he | h2
            · rw [he]
              exact claimChildren_not_frontier n.items s.seen rest id hidS hidR
            · exact claimChildren_not_frontier n.items s.seen rest x
                (h.visitSeen x h2) (hvNR x h2)
          · intro x hx
            rcases List.mem_cons.mp hx with he | h2
            · rw [he]; exact claimChildren_seen_mono n.items s.seen rest id hidS
            · exact claimChildren_seen_mono n.items s.seen rest x (h.fetchSeen x h2)
          · intro x hx
            rcases List.mem_cons.mp hx with he | h2
            · rw [he]
              exact claimChildren_not_frontier n.items s.seen rest id hidS hidR
            · exact claimChildren_not_frontier n.items s.seen rest x
                (h.fetchSeen x h2) (hgNR x h2)
          · intro y hy hln
            rcases List.mem_cons.mp hy with he | h2
            · rw [he] at hln; rw [hL] at hln; cases hln
            · exact h.failuresReported y h2 hln

theorem invC_processOne (world : World) (topts : ThumbOptions)
    (E : List String) (s : BuildState) (id : String)
    (h : InvC world E s) :
    InvC world E (processOne world topts s id) := by
  cases hL : lookupDoc world id with
  | none =>
    rw [processOne_none world topts s id hL]
    exact ⟨h.byIdNodup, h.entryNodup, h.entryProvenance, h.fetchedCached⟩
  | some doc =>
    by_cases hh : hitCheck s.cache id (hashBytes doc.body) = true
    · rw [processOne_hit world topts s id doc hL hh]
      exact ⟨h.byIdNodup, h.entryNodup, h.entryProvenance, h.fetchedCached⟩
    · have hh2 : hitCheck s.cache id (hashBytes doc.body) = false := by
        revert hh; cases hitCheck s.cache id (hashBytes doc.body) <;> simp
      cases hn : normalize doc doc.version with
      | error e =>
        rw [processOne_fetch_error world topts s id doc e hL hh2 hn]
        refine ⟨h.byIdNodup, h.entryNodup, ?_, ?_⟩
        · intro x hx
          rcases h.entryProvenance x hx with h1 | h1
          · exact Or.inl h1
          · exact Or.inr (List.mem_cons_of_mem _ h1)
        · intro x hx doc2 hL2 hk2 n2 hn2
          rcases List.mem_cons.mp hx with he | h2
          · rw [he] at hL2
            rw [hL] at hL2
            have hdoc : doc2 = doc := (Option.some.inj hL2).symm
            rw [hdoc, hn] at hn2
            cases hn2
          · exact h.fetchedCached x h2 doc2 hL2 hk2 n2 hn2
      | ok n =>
        cases hk : n.kind with
        | manifest =>
          rw [processOne_fetch_manifest world topts s id doc n hL hh2 hn hk]
          refine ⟨byIdNodup_cachePut _ _ _ _ h.byIdNodup,
            entryNodup_cachePut _ _ _ _ h.entryNodup, ?_, ?_⟩
          · intro x hx
            rcases (mem_keys_entries_cachePut s.cache id n
                (resolveThumbnail n topts) x).mp hx with ⟨_, he⟩ | h1
            · exact Or.inr (by rw [he]; exact List.mem_cons_self id s.fetchLog)
            · rcases h.entryProvenance x h1 with h2 | h2
              · exact Or.inl h2
              · exact Or.inr (List.mem_cons_of_mem _ h2)
          · intro x hx doc2 hL2 hk2 n2 hn2
            rcases List.mem_cons.mp hx with he | h2
            · exact (mem_keys_entries_cachePut s.cache id n
                (resolveThumbnail n topts) x).mpr (Or.inl ⟨hk, he⟩)
            · exact (mem_keys_entries_cachePut s.cache id n
                (resolveThumbnail n topts) x).mpr
                (Or.inr (h.fetchedCached x h2 doc2 hL2 hk2 n2 hn2))
        | collection =>
          rw [processOne_fetch_collection world topts s id doc n hL hh2 hn hk]
          have hent : (cachePut s.cache id n (resolveThumbnail n topts)).entries
              = s.cache.entries :=
            entries_cachePut_of_collection s.cache id n (resolveThumbnail n topts) hk
          refine ⟨byIdNodup_cachePut _ _ _ _ h.byIdNodup, ?_, ?_, ?_⟩
          · rw [hent]; exact h.entryNodup
          · intro x hx
            rw [hent] at hx
            rcases h.entryProvenance x hx with h1 | h1
            · exact Or.inl h1
            · exact Or.inr (List.mem_cons_of_mem _ h1)
          · intro x hx doc2 hL2 hk2 n2 hn2
            rw [hent]
            rcases List.mem_cons.mp hx with he | h2
            · rw [he] at hL2
              rw [hL] at hL2
              have hdoc : doc2 = doc := (Option.some.inj hL2).symm
              have hnk : n.kind = doc.kind := (normalize_ok_spec hn).1
              rw [hk] at hnk
              rw [hdoc] at hk2
              rw [← hnk] at hk2
              cases hk2
            · exact h.fetchedCached x h2 doc2 hL2 hk2 n2 hn2

theorem walkAux_invT (world : World) (topts : ThumbOptions) :
    ∀ (fuel : Nat) (s : BuildState), InvT world s →
      InvT world (walkAux world topts fuel s) := by
  intro fuel
  induction fuel with
  | zero => intro s h; rw [walkAux_zero]; exact h
  | succ n ih =>
    intro s h
    rw [walkAux_succ]
    cases hf : s.frontier with
    | nil =>
      refine ⟨List.nodup_nil, ?_, h.seenNodup, h.visitNodup, h.visitSeen,
        ?_, h.fetchNodup, h.fetchSeen, ?_, h.failuresReported⟩
      · intro x hx; exact absurd hx (List.not_mem_nil x)
      · intro x _; exact List.not_mem_nil x
      · intro x _; exact List.not_mem_nil x
    | cons id rest =>
      exact ih _ (invT_processOne world topts s id rest h hf)

theorem walkAux_invC (world : World) (topts : ThumbOptions) (E : List String) :
    ∀ (fuel : Nat) (s : BuildState), InvC world E s →
      InvC world E (walkAux world topts fuel s) := by
  intro fuel
  induction fuel with
  | zero => intro s h; rw [walkAux_zero]; exact h
  | succ n ih =>
    intro s h
    rw [walkAux_succ]
    cases hf : s.frontier with
    | nil =>
      exact ⟨h.byIdNodup, h.entryNodup, h.entryProvenance, h.fetchedCached⟩
    | cons id rest =>
      refine ih _ (invC_processOne world topts E { s with frontier := rest } id ?_)
      exact ⟨h.byIdNodup, h.entryNodup, h.entryProvenance, h.fetchedCached⟩

theorem walkAux_fatal (world : World) (topts : ThumbOptions) :
    ∀ (fuel : Nat) (s : BuildState),
      (walkAux world topts fuel s).fatal = s.fatal := by
  intro fuel
  induction fuel with
  | zero => intro s; rw [walkAux_zero]
  | succ n ih =>
    intro s
    rw [walkAux_succ]
    cases hf : s.frontier with
    | nil => rfl
    | cons id rest =>
      rw [ih]
      exact processOne_fatal world topts { s with frontier := rest } id

/-! ## Bridging lemmas for whole runs -/

theorem invT_init (world : World) (cache1 : CacheState) (uri : String) :
    InvT world (initState cache1 uri) := by
  refine ⟨List.nodup_singleton uri, fun x hx => hx, List.nodup_singleton uri,
    List.nodup_nil, ?_, ?_, List.nodup_nil, ?_, ?_, ?_⟩
  · intro x hx; exact absurd hx (List.not_mem_nil x)
  · intro x hx; exact absurd hx (List.not_mem_nil x)
  · intro x hx; exact absurd hx (List.not_mem_nil x)
  · intro x hx; exact absurd hx (List.not_mem_nil x)
  · intro x hx; exact absurd hx (List.not_mem_nil x)

theorem invC_init (world : World) (cache1 : CacheState) (uri : String)
    (hwf : WFCache cache1) :
    InvC world (keys cache1.entries) (initState cache1 uri) := by
  refine ⟨hwf.1, hwf.2, fun x hx => Or.inl hx, ?_⟩
  intro x hx
  exact absurd hx (List.not_mem_nil x)

theorem wf_emptyCache : WFCache emptyCache :=
  ⟨List.nodup_nil, List.nodup_nil⟩

theorem wf_invalidate (cache0 : CacheState) (uri : String)
    (hwf : WFCache cache0) : WFCache (invalidateIfChanged cache0 uri) := by
  cases hcol : cache0.index.collection with
  | none =>
    unfold invalidateIfChanged
    rw [hcol]
    exact hwf
  | some meta =>
    unfold invalidateIfChanged
    rw [hcol]
    show WFCache (if meta.uri = uri then cache0 else emptyCache)
    by_cases hm : meta.uri = uri
    · rw [if_pos hm]; exact hwf
    · rw [if_neg hm]; exact wf_emptyCache

theorem invalidate_entries_sub (cache0 : CacheState) (uri : String) :
    ∀ x ∈ keys (invalidateIfChanged cache0 uri).entries,
      x ∈ keys cache0.entries := by
  cases hcol : cache0.index.collection with
  | none =>
    unfold invalidateIfChanged
    rw [hcol]
    exact fun x hx => hx
  | some meta =>
    unfold invalidateIfChanged
    rw [hcol]
    show ∀ x ∈ keys (if meta.uri = uri then cache0 else emptyCache).entries,
      x ∈ keys cache0.entries
    by_cases hm : meta.uri = uri
    · rw [if_pos hm]; exact fun x hx => hx
    · rw [if_neg hm]
      intro x hx
      exact absurd hx (List.not_mem_nil x)

/-! ## Claim C4 -/

/-- Claim C4: every walk, cyclic input trees included, terminates (the
work queue drains to empty within the static fuel) and dispatches each
distinct resource id at most once. -/
theorem claim4_cycle_safe (world : World) (topts : ThumbOptions)
    (uri : String) (now : Nat) (cache0 : CacheState) :
    (runPipeline world topts uri now cache0).completed = true ∧
    (runPipeline world topts uri now cache0).visitLog.Nodup ∧
    (∀ m : String,
      (runPipeline world topts uri now cache0).visitLog.count m ≤ 1) := by
  cases hL : lookupDoc world uri with
  | none =>
    rw [runPipeline_root_missing world topts uri now cache0 hL]
    refine ⟨rfl, List.nodup_nil, ?_⟩
    intro m
    simp [fatalState]
  | some rootDoc =>
    by_cases ht : trustedRoot (invalidateIfChanged cache0 uri) uri
        (hashBytes rootDoc.body) = true
    · rw [runPipeline_trusted world topts uri now cache0 rootDoc hL ht]
      refine ⟨rfl, List.nodup_nil, ?_⟩
      intro m
      simp [skipState]
    · have ht2 : trustedRoot (invalidateIfChanged cache0 uri) uri
          (hashBytes rootDoc.body) = false := by
        revert ht
        cases trustedRoot (invalidateIfChanged cache0 uri) uri
          (hashBytes rootDoc.body) <;> simp
      rw [runPipeline_walk world topts uri now cache0 rootDoc hL ht2]
      have hT := walkAux_invT world topts (fuelFor world uri)
        (initState (invalidateIfChanged cache0 uri) uri)
        (invT_init world (invalidateIfChanged cache0 uri) uri)
      refine ⟨?_, hT.visitNodup, ?_⟩
      · exact walkAux_completed world topts uri (fuelFor world uri)
          (initState (invalidateIfChanged cache0 uri) uri)
          (measure_init world uri (invalidateIfChanged cache0 uri))
      · intro m
        exact List.nodup_iff_count_le_one.mp hT.visitNodup m

/-- Witness for claim C4: the concrete cyclic sample tree (a Collection
referencing its ancestor and itself) terminates and visits the three ids
once each. -/
theorem claim4_cycle_safe_witness :
    ((runPipeline sampleWorldCycle sampleOpts "root" 0 emptyCache).completed = true ∧
      (runPipeline sampleWorldCycle sampleOpts "root" 0 emptyCache).visitLog.Nodup ∧
      (∀ m : String,
        (runPipeline sampleWorldCycle sampleOpts "root" 0 emptyCache).visitLog.count m ≤ 1)) ∧
    (runPipeline sampleWorldCycle sampleOpts "root" 0 emptyCache).visitLog.length = 3 :=
  ⟨claim4_cycle_safe sampleWorldCycle sampleOpts "root" 0 emptyCache, by decide⟩

/-! ## Claim C3 -/

/-- Claim C3: one build never fetches any id twice (so a Manifest shared
by two distinct parent Collections is fetched at most once, exactly once
when it was fetched at all), the index assigns at most one slug row per
id (both parents therefore resolve the child to the same slug), at most
one cache entry per id exists, and every entry either predates the build
or stems from its one logged fetch. -/
theorem claim3_dedup (world : World) (topts : ThumbOptions) (uri : String)
    (now : Nat) (cache0 : CacheState) (hwf : WFCache cache0) :
    (runPipeline world topts uri now cache0).fetchLog.Nodup ∧
    (∀ m : String,
      (runPipeline world topts uri now cache0).fetchLog.count m ≤ 1) ∧
    (keys (runPipeline world topts uri now cache0).cache.index.byId).Nodup ∧
    (keys (runPipeline world topts uri now cache0).cache.entries).Nodup ∧
    (∀ m : String,
      (keys (runPipeline world topts uri now cache0).cache.entries).count m ≤ 1) ∧
    (∀ m ∈ keys (runPipeline world topts uri now cache0).cache.entries,
      m ∈ keys cache0.entries ∨
        m ∈ (runPipeline world topts uri now cache0).fetchLog) := by
  have hwf1 : WFCache (invalidateIfChanged cache0 uri) :=
    wf_invalidate cache0 uri hwf
  have hsub1 := invalidate_entries_sub cache0 uri
  cases hL : lookupDoc world uri with
  | none =>
    rw [runPipeline_root_missing world topts uri now cache0 hL]
    refine ⟨List.nodup_nil, ?_, hwf1.1, hwf1.2, ?_, ?_⟩
    · intro m; simp [fatalState]
    · intro m; exact List.nodup_iff_count_le_one.mp hwf1.2 m
    · intro m hm; exact Or.inl (hsub1 m hm)
  | some rootDoc =>
    by_cases ht : trustedRoot (invalidateIfChanged cache0 uri) uri
        (hashBytes rootDoc.body) = true
    · rw [runPipeline_trusted world topts uri now cache0 rootDoc hL ht]
      refine ⟨List.nodup_nil, ?_, hwf1.1, hwf1.2, ?_, ?_⟩
      · intro m; simp [skipState]
      · intro m; exact List.nodup_iff_count_le_one.mp hwf1.2 m
      · intro m hm; exact Or.inl (hsub1 m hm)
    · have ht2 : trustedRoot (invalidateIfChanged cache0 uri) uri
          (hashBytes rootDoc.body) = false := by
        revert ht
        cases trustedRoot (invalidateIfChanged cache0 uri) uri
          (hashBytes rootDoc.body) <;> simp
      rw [runPipeline_walk world topts uri now cache0 rootDoc hL ht2]
      have hT := walkAux_invT world topts (fuelFor world uri)
        (initState (invalidateIfChanged cache0 uri) uri)
        (invT_init world (invalidateIfChanged cache0 uri) uri)
      have hC := walkAux_invC world topts
        (keys (invalidateIfChanged cache0 uri).entries) (fuelFor world uri)
        (initState (invalidateIfChanged cache0 uri) uri)
        (invC_init world (invalidateIfChanged cache0 uri) uri hwf1)
      refine ⟨hT.fetchNodup, ?_, hC.byIdNodup, hC.entryNodup, ?_, ?_⟩
      · intro m; exact List.nodup_iff_count_le_one.mp hT.fetchNodup m
      · intro m; exact List.nodup_iff_count_le_one.mp hC.entryNodup m
      · intro m hm
        rcases hC.entryProvenance m hm with h1 | h1
        · exact Or.inl (hsub1 m h1)
        · exact Or.inr h1

/-- Witness for claim C3: in the concrete tree where two Collections both
reference Manifest `m`, the build fetches `m` once, stores one entry and
one slug row for it. -/
theorem claim3_dedup_witness :
    WFCache emptyCache ∧
    (runPipeline sampleWorldDedup sampleOpts "root" 0 emptyCache).fetchLog.Nodup ∧
    (runPipeline sampleWorldDedup sampleOpts "root" 0 emptyCache).fetchLog.count "m" = 1 ∧
    (keys (runPipeline sampleWorldDedup sampleOpts "root" 0 emptyCache).cache.entries).count "m" = 1 ∧
    (keys (runPipeline sampleWorldDedup sampleOpts "root" 0 emptyCache).cache.index.byId).count "m" = 1 :=
  ⟨wf_emptyCache,
    (claim3_dedup sampleWorldDedup sampleOpts "root" 0 emptyCache wf_emptyCache).1,
    by decide, by decide, by decide⟩

/-! ## Claim C5 -/

/-- Claim C5: a failing non-root resource never aborts the build (a
resolvable root always yields a non-fatal, completed run), every
dispatched id the world cannot resolve is recorded among the reported
failures, every fetched Manifest that normalizes is cached, and a root
failure is fatal and reported. -/
theorem claim5_partial_failure (world : World) (topts : ThumbOptions)
    (uri : String) (now : Nat) (cache0 : CacheState) :
    (lookupDoc world uri = none →
      (runPipeline world topts uri now cache0).fatal = true ∧
        uri ∈ (runPipeline world topts uri now cache0).failures) ∧
    ((lookupDoc world uri).isSome →
      (runPipeline world topts uri now cache0).fatal = false ∧
        (runPipeline world topts uri now cache0).completed = true) ∧
    (∀ id ∈ (runPipeline world topts uri now cache0).visitLog,
      lookupDoc world id = none →
        id ∈ (runPipeline world topts uri now cache0).failures) ∧
    (WFCache cache0 →
      ∀ id ∈ (runPipeline world topts uri now cache0).fetchLog,
      ∀ doc : RawDoc, lookupDoc world id = some doc →
        doc.kind = Kind.manifest →
        ∀ n : NormalizedResource, normalize doc doc.version = Except.ok n →
          id ∈ keys (runPipeline world topts uri now cache0).cache.entries) := by
  refine ⟨?_, ?_, ?_, ?_⟩
  · intro hL
    rw [runPipeline_root_missing world topts uri now cache0 hL]
    exact ⟨rfl, List.mem_cons_self uri []⟩
  · intro hLs
    obtain ⟨rootDoc, hL⟩ := Option.isSome_iff_exists.mp hLs
    by_cases ht : trustedRoot (invalidateIfChanged cache0 uri) uri
        (hashBytes rootDoc.body) = true
    · rw [runPipeline_trusted world topts uri now cache0 rootDoc hL ht]
      exact ⟨rfl, rfl⟩
    · have ht2 : trustedRoot (invalidateIfChanged cache0 uri) uri
          (hashBytes rootDoc.body) = false := by
        revert ht
        cases trustedRoot (invalidateIfChanged cache0 uri) uri
          (hashBytes rootDoc.body) <;> simp
      rw [runPipeline_walk world topts uri now cache0 rootDoc hL ht2]
      constructor
      · exact walkAux_fatal world topts (fuelFor world uri)
          (initState (invalidateIfChanged cache0 uri) uri)
      · exact walkAux_completed world topts uri (fuelFor world uri)
          (initState (invalidateIfChanged cache0 uri) uri)
          (measure_init world uri (invalidateIfChanged cache0 uri))
  · intro id hid hln
    cases hL : lookupDoc world uri with
    | none =>
      rw [runPipeline_root_missing world topts uri now cache0 hL] at hid ⊢
      exact absurd hid (List.not_mem_nil id)
    | some rootDoc =>
      by_cases ht : trustedRoot (invalidateIfChanged cache0 uri) uri
          (hashBytes rootDoc.body) = true
      · rw [runPipeline_trusted world topts uri now cache0 rootDoc hL ht] at hid ⊢
        exact absurd hid (List.not_mem_nil id)
      · have ht2 : trustedRoot (invalidateIfChanged cache0 uri) uri
            (hashBytes rootDoc.body) = false := by
          revert ht
          cases trustedRoot (invalidateIfChanged cache0 uri) uri
            (hashBytes rootDoc.body) <;> simp
        rw [runPipeline_walk world topts uri now cache0 rootDoc hL ht2] at hid ⊢
        have hT := walkAux_invT world topts (fuelFor world uri)
          (initState (invalidateIfChanged cache0 uri) uri)
          (invT_init world (invalidateIfChanged cache0 uri) uri)
        exact hT.failuresReported id hid hln
  · intro hwf id hid doc hLd hkd n hn
    cases hL : lookupDoc world uri with
    | none =>
      rw [runPipeline_root_missing world topts uri now cache0 hL] at hid ⊢
      exact absurd hid (List.not_mem_nil id)
    | some rootDoc =>
      by_cases ht : trustedRoot (invalidateIfChanged cache0 uri) uri
          (hashBytes rootDoc.body) = true
      · rw [runPipeline_trusted world topts uri now cache0 rootDoc hL ht] at hid ⊢
        exact absurd hid (List.not_mem_nil id)
      · have ht2 : trustedRoot (invalidateIfChanged cache0 uri) uri
            (hashBytes rootDoc.body) = false := by
          revert ht
          cases trustedRoot (invalidateIfChanged cache0 uri) uri
            (hashBytes rootDoc.body) <;> simp
        rw [runPipeline_walk world topts uri now cache0 rootDoc hL ht2] at hid ⊢
        have hC := walkAux_invC world topts
          (keys (invalidateIfChanged cache0 uri).entries) (fuelFor world uri)
          (initState (invalidateIfChanged cache0 uri) uri)
          (invC_init world (invalidateIfChanged cache0 uri) uri
            (wf_invalidate cache0 uri hwf))
        exact hC.fetchedCached id hid doc hLd hkd n hn

/-- Witness for claim C5: in the concrete tree of ten referenced
Manifests with `m5` unreachable, the build is non-fatal and completed,
reports exactly the failure `m5`, and caches the nine reachable
entries. -/
theorem claim5_partial_failure_witness :
    (lookupDoc sampleWorldPartial "root").isSome ∧
    ((runPipeline sampleWorldPartial sampleOpts "root" 0 emptyCache).fatal = false ∧
      (runPipeline sampleWorldPartial sampleOpts "root" 0 emptyCache).completed = true) ∧
    (runPipeline sampleWorldPartial sampleOpts "root" 0 emptyCache).failures = ["m5"] ∧
    (keys (runPipeline sampleWorldPartial sampleOpts "root" 0 emptyCache).cache.entries).length = 9 :=
  ⟨by decide,
    (claim5_partial_failure sampleWorldPartial sampleOpts "root" 0 emptyCache).2.1
      (by decide),
    by decide, by decide⟩

end Canopy
